import Mathlib

/-!
Shallow embedding of the Vigenère cipher crate (canonical iterator-based
version: `src/iterator.rs` and the façade in `src/lib.rs`).

Modelling conventions:
* Rust `char` is Lean `Char`; Rust's `char` ordering is code-point order,
  so the range guards `ch >= 'A' && ch <= 'Z'` are written as comparisons
  on `Char.toNat` (65..90 and 97..122).
* Rust `u8` arithmetic is modelled on `Nat` with explicit checks
  (`u8add`, `u8sub`): debug-build Rust panics on overflow/underflow, and a
  panic is modelled as `Except.error`.  `Vec` indexing `v[i]` is modelled
  with `List.get?`, where `none` is the index-out-of-bounds panic.
* The upstream character iterator is modelled as the list of characters it
  has yet to yield; `Iterator::next` is explicit state passing.
-/

/-- Runtime failures (Rust panics) that the embedded code can hit:
out-of-bounds `Vec` indexing, and over/underflow of checked `u8`
arithmetic (debug-build semantics). -/
inductive RtError where
  | indexOutOfBounds
  | arithOverflow
deriving DecidableEq, Repr

/-- Checked `u8` addition: `a + b`, panicking (error) when the result does
not fit in a `u8`. -/
def u8add (a b : Nat) : Except RtError Nat :=
  if a + b ≤ 255 then .ok (a + b) else .error .arithOverflow

/-- Checked `u8` subtraction: `a - b`, panicking (error) on underflow. -/
def u8sub (a b : Nat) : Except RtError Nat :=
  if b ≤ a then .ok (a - b) else .error .arithOverflow

/-- Mode of the iterator, from `enum VigenereMode` in `src/iterator.rs`. -/
inductive VigenereMode where
  | Decrypt
  | Encrypt
deriving DecidableEq, Repr

/-- Case policy, from `enum ForceCase` in `src/iterator.rs`. -/
inductive ForceCase where
  | Keep
  | ToLower
  | ToUpper
deriving DecidableEq, Repr

/-- Non-letter policy, from `enum NonLetterMode` in `src/iterator.rs`. -/
inductive NonLetterMode where
  | Keep
  | Skip
deriving DecidableEq, Repr

/-- Rust's `ch.to_uppercase().next().unwrap()` restricted to the inputs the
theorems use: on an ASCII lowercase letter it yields the corresponding
uppercase letter, and on a character with no (simple ASCII) uppercase
mapping it yields the character itself.  (Full Unicode uppercasing differs
only on non-ASCII cased characters, which no claim involves: every theorem
touching the key schedule assumes a key of Latin letters.) -/
def toUppercaseFirst (c : Char) : Char :=
  if 97 ≤ c.toNat ∧ c.toNat ≤ 122 then Char.ofNat (c.toNat - 32) else c

/-- Key-schedule construction from `VigenereIterator::new`
(`src/iterator.rs` lines 54-59): map every key character to
`uppercase(ch) as u8 - b'A'`; the cast `as u8` truncates mod 256 and the
`u8` subtraction can panic (underflow), hence the `Except`. -/
def keyDistances : List Char → Except RtError (List Nat)
  | [] => .ok []
  | ch :: rest =>
    match u8sub ((toUppercaseFirst ch).toNat % 256) 65 with
    | .error e => .error e
    | .ok d =>
      match keyDistances rest with
      | .error e => .error e
      | .ok ds => .ok (d :: ds)

/-- State of `struct VigenereIterator` (`src/iterator.rs` lines 35-45);
the upstream iterator `iter` is the list of characters it has yet to
yield. -/
structure VigenereIterator where
  mode : VigenereMode
  distances : List Nat
  force_case : ForceCase
  none_letter_mode : NonLetterMode
  index : Nat
  iter : List Char
deriving Repr

/-- Constructor `VigenereIterator::new` (`src/iterator.rs` lines 54-68):
build the key schedule (which can panic on a bad key, hence `Except`),
default policies `Keep`/`Keep`, cursor at 0.  There is no key validation:
an empty key yields an empty `distances` list and an `ok` result. -/
def VigenereIterator.new (mode : VigenereMode) (key : List Char)
    (iter : List Char) : Except RtError VigenereIterator :=
  match keyDistances key with
  | .error e => .error e
  | .ok distances =>
    .ok { mode := mode, distances := distances, force_case := .Keep,
          none_letter_mode := .Keep, index := 0, iter := iter }

/-- Builder `with_force_case` (`src/iterator.rs` lines 70-75). -/
def VigenereIterator.with_force_case (s : VigenereIterator)
    (force_case : ForceCase) : VigenereIterator :=
  { s with force_case := force_case }

/-- Builder `with_none_letter_mode` (`src/iterator.rs` lines 77-82). -/
def VigenereIterator.with_none_letter_mode (s : VigenereIterator)
    (none_letter_mode : NonLetterMode) : VigenereIterator :=
  { s with none_letter_mode := none_letter_mode }

/-- The shift computation of `Iterator::next` (`src/iterator.rs` lines
98-101 and 113-116): `(input + distance) % 26` when encrypting and
`(26 + input - distance) % 26` when decrypting, in checked `u8`
arithmetic. -/
def shiftOutput (m : VigenereMode) (input distance : Nat) :
    Except RtError Nat :=
  match m with
  | .Encrypt =>
    match u8add input distance with
    | .error e => .error e
    | .ok t => .ok (t % 26)
  | .Decrypt =>
    match u8add 26 input with
    | .error e => .error e
    | .ok t =>
      match u8sub t distance with
      | .error e => .error e
      | .ok t => .ok (t % 26)

/-- Body shared by the two letter branches of `Iterator::next`
(`src/iterator.rs` lines 94-107 upper, 109-121 lower): look up
`distances[index]` (a possible out-of-bounds panic), advance the cursor
modulo the schedule length, subtract the base from the character's byte,
apply the mode's shift, and re-render on `base` — or on `altBase` when
`force_case` equals `alt` (`ToLower` for the upper branch with `altBase`
97, `ToUpper` for the lower branch with `altBase` 65).  Returns the
emitted character and the new cursor. -/
def letterStep (m : VigenereMode) (d : List Nat) (fc : ForceCase)
    (i : Nat) (chByte base altBase : Nat) (alt : ForceCase) :
    Except RtError (Char × Nat) :=
  match d.get? i with
  | none => .error .indexOutOfBounds
  | some distance =>
    let i' := (i + 1) % d.length
    match u8sub chByte base with
    | .error e => .error e
    | .ok input =>
      match shiftOutput m input distance with
      | .error e => .error e
      | .ok output =>
        match (if fc = alt then u8add altBase output
               else u8add base output) with
        | .error e => .error e
        | .ok b => .ok (Char.ofNat b, i')

/-- The body of `Iterator::next` (`src/iterator.rs` lines 91-132) over the
explicit state `(index, remaining input)`: dispatch on the head character
(uppercase letter / lowercase letter / other), where the `Skip` policy's
`continue` is the recursive call consuming the next upstream character.
Returns the emitted character (`none` = stream exhausted), the new cursor
and the remaining upstream characters. -/
def nextAux (m : VigenereMode) (d : List Nat) (fc : ForceCase)
    (nlm : NonLetterMode) : Nat → List Char →
    Except RtError (Option Char × Nat × List Char)
  | i, [] => .ok (none, i, [])
  | i, ch :: rest =>
    if 65 ≤ ch.toNat ∧ ch.toNat ≤ 90 then
      match letterStep m d fc i (ch.toNat % 256) 65 97 .ToLower with
      | .error e => .error e
      | .ok (c, i') => .ok (some c, i', rest)
    else if 97 ≤ ch.toNat ∧ ch.toNat ≤ 122 then
      match letterStep m d fc i (ch.toNat % 256) 97 65 .ToUpper with
      | .error e => .error e
      | .ok (c, i') => .ok (some c, i', rest)
    else if nlm = .Skip then
      nextAux m d fc nlm i rest
    else
      .ok (some ch, i, rest)

/-- One call of `Iterator::next` on the iterator state. -/
def VigenereIterator.next (s : VigenereIterator) :
    Except RtError (Option Char × VigenereIterator) :=
  match nextAux s.mode s.distances s.force_case s.none_letter_mode
      s.index s.iter with
  | .error e => .error e
  | .ok (oc, i', rest) => .ok (oc, { s with index := i', iter := rest })

/-- A call of `next` that emits a character has consumed at least one
upstream character (needed for termination of `collect`). -/
theorem nextAux_some_length_lt (m : VigenereMode) (d : List Nat)
    (fc : ForceCase) (nlm : NonLetterMode) :
    ∀ (xs : List Char) (i : Nat) (c : Char) (i' : Nat) (rest : List Char),
      nextAux m d fc nlm i xs = .ok (some c, i', rest) →
      rest.length < xs.length
  | [], i, c, i', rest => by simp [nextAux]
  | ch :: xs, i, c, i', rest => by
    intro h
    rw [nextAux] at h
    split_ifs at h with hu hl hs
    · split at h
      · exact absurd h (by simp)
      · simp only [Except.ok.injEq, Option.some.injEq, Prod.mk.injEq] at h
        rw [← h.2.2]
        exact Nat.lt_succ_self _
    · split at h
      · exact absurd h (by simp)
      · simp only [Except.ok.injEq, Option.some.injEq, Prod.mk.injEq] at h
        rw [← h.2.2]
        exact Nat.lt_succ_self _
    · exact Nat.lt_trans (nextAux_some_length_lt m d fc nlm xs i c i' rest h)
        (Nat.lt_succ_self _)
    · simp only [Except.ok.injEq, Option.some.injEq, Prod.mk.injEq] at h
      rw [← h.2.2]
      exact Nat.lt_succ_self _

/-- Draining the iterator: repeatedly call `next` and collect the emitted
characters, as the façade's `.collect()` does; an error of any call is the
whole run's error. -/
def collectAux (m : VigenereMode) (d : List Nat) (fc : ForceCase)
    (nlm : NonLetterMode) (i : Nat) (xs : List Char) :
    Except RtError (List Char) :=
  match h : nextAux m d fc nlm i xs with
  | .error e => .error e
  | .ok (none, _, _) => .ok []
  | .ok (some c, i', rest) =>
    match collectAux m d fc nlm i' rest with
    | .error e => .error e
    | .ok cs => .ok (c :: cs)
termination_by xs.length
decreasing_by exact nextAux_some_length_lt m d fc nlm xs i _ _ _ h

/-- Draining a `VigenereIterator` to exhaustion (`.collect()`). -/
def VigenereIterator.collect (s : VigenereIterator) :
    Except RtError (List Char) :=
  collectAux s.mode s.distances s.force_case s.none_letter_mode
    s.index s.iter

/-- Character-by-character restatement of draining the iterator: one
recursive call per upstream character, also returning the final cursor.
`collectAux_eq_runList` proves it equal to the `next`-chaining
`collectAux`; the claims about whole runs are proved against this
form. -/
def runList (m : VigenereMode) (d : List Nat) (fc : ForceCase)
    (nlm : NonLetterMode) : Nat → List Char →
    Except RtError (List Char × Nat)
  | i, [] => .ok ([], i)
  | i, ch :: rest =>
    if 65 ≤ ch.toNat ∧ ch.toNat ≤ 90 then
      match letterStep m d fc i (ch.toNat % 256) 65 97 .ToLower with
      | .error e => .error e
      | .ok (c, i') =>
        match runList m d fc nlm i' rest with
        | .error e => .error e
        | .ok (cs, j) => .ok (c :: cs, j)
    else if 97 ≤ ch.toNat ∧ ch.toNat ≤ 122 then
      match letterStep m d fc i (ch.toNat % 256) 97 65 .ToUpper with
      | .error e => .error e
      | .ok (c, i') =>
        match runList m d fc nlm i' rest with
        | .error e => .error e
        | .ok (cs, j) => .ok (c :: cs, j)
    else if nlm = .Skip then
      runList m d fc nlm i rest
    else
      match runList m d fc nlm i rest with
      | .error e => .error e
      | .ok (cs, j) => .ok (ch :: cs, j)

/-- Trait method `Encrypt::encrypt` for any character iterator
(`src/iterator.rs` lines 157-176): build an Encrypt-mode iterator, then
apply the optional configuration. -/
def encryptChars (iter : List Char) (key : List Char)
    (force_case : Option ForceCase)
    (none_letter_mode : Option NonLetterMode) :
    Except RtError VigenereIterator :=
  match VigenereIterator.new .Encrypt key iter with
  | .error e => .error e
  | .ok v =>
    let v := match force_case with
      | some fc => v.with_force_case fc
      | none => v
    let v := match none_letter_mode with
      | some nlm => v.with_none_letter_mode nlm
      | none => v
    .ok v

/-- Trait method `Decrypt::decrypt` (`src/iterator.rs` lines 178-197). -/
def decryptChars (iter : List Char) (key : List Char)
    (force_case : Option ForceCase)
    (none_letter_mode : Option NonLetterMode) :
    Except RtError VigenereIterator :=
  match VigenereIterator.new .Decrypt key iter with
  | .error e => .error e
  | .ok v =>
    let v := match force_case with
      | some fc => v.with_force_case fc
      | none => v
    let v := match none_letter_mode with
      | some nlm => v.with_none_letter_mode nlm
      | none => v
    .ok v

/-- The usage pattern `text.chars().encrypt(key, fc, nlm).collect()`. -/
def encryptCollect (text key : List Char) (force_case : Option ForceCase)
    (none_letter_mode : Option NonLetterMode) :
    Except RtError (List Char) :=
  match encryptChars text key force_case none_letter_mode with
  | .error e => .error e
  | .ok v => v.collect

/-- The usage pattern `text.chars().decrypt(key, fc, nlm).collect()`. -/
def decryptCollect (text key : List Char) (force_case : Option ForceCase)
    (none_letter_mode : Option NonLetterMode) :
    Except RtError (List Char) :=
  match decryptChars text key force_case none_letter_mode with
  | .error e => .error e
  | .ok v => v.collect

/-- The façade `struct Vigenere(String)` of `src/lib.rs`: it stores the
key verbatim; construction (`Vigenere::new`, lines 36-38) performs no
validation and cannot fail. -/
structure Vigenere where
  key : List Char
deriving Repr

/-- Façade constructor `Vigenere::new` (`src/lib.rs` lines 36-38). -/
def Vigenere.new (key : List Char) : Vigenere :=
  ⟨key⟩

/-- Façade `Vigenere::encrypt` (`src/lib.rs` lines 40-43):
`plain_text.chars().encrypt(&self.0, None, None).collect()`. -/
def Vigenere.encrypt (v : Vigenere) (plain_text : List Char) :
    Except RtError (List Char) :=
  encryptCollect plain_text v.key none none

/-- Façade `Vigenere::decrypt` (`src/lib.rs` lines 45-48). -/
def Vigenere.decrypt (v : Vigenere) (cipher_text : List Char) :
    Except RtError (List Char) :=
  decryptCollect cipher_text v.key none none

/-- A character is a Latin letter exactly when the range guards of
`Iterator::next` accept it: code point in 65..90 or 97..122. -/
def isLatinLetter (c : Char) : Prop :=
  (65 ≤ c.toNat ∧ c.toNat ≤ 90) ∨ (97 ≤ c.toNat ∧ c.toNat ≤ 122)

instance (c : Char) : Decidable (isLatinLetter c) := by
  unfold isLatinLetter; infer_instance

/-- Boolean form of `isLatinLetter`, for `List.filter`. -/
def isLatinLetterB (c : Char) : Bool :=
  decide (isLatinLetter c)

/-- A key accepted by the spec: non-empty and all Latin letters. -/
def ValidKey (key : List Char) : Prop :=
  key ≠ [] ∧ ∀ c ∈ key, isLatinLetter c

instance (key : List Char) : Decidable (ValidKey key) := by
  unfold ValidKey; infer_instance

/-- A well-formed key schedule: non-empty with every shift below 26. -/
def GoodDists (d : List Nat) : Prop :=
  d ≠ [] ∧ ∀ x ∈ d, x < 26

instance (d : List Nat) : Decidable (GoodDists d) := by
  unfold GoodDists; infer_instance

/-- Ideal (unchecked) per-letter arithmetic of the spec's step contract:
`(value + shift) mod 26` for Encrypt, `(26 + value - shift) mod 26` for
Decrypt. -/
def outVal (m : VigenereMode) (a s : Nat) : Nat :=
  match m with
  | .Encrypt => (a + s) % 26
  | .Decrypt => (26 + a - s) % 26

/-- Swap the case of a Latin letter; any other character is unchanged.
Used to state that the shift/cursor trace is insensitive to the case of
the input letters. -/
def toOppositeCase (c : Char) : Char :=
  if 65 ≤ c.toNat ∧ c.toNat ≤ 90 then Char.ofNat (c.toNat + 32)
  else if 97 ≤ c.toNat ∧ c.toNat ≤ 122 then Char.ofNat (c.toNat - 32)
  else c

/-- Code points below the surrogate range survive `Char.ofNat`. -/
theorem char_ofNat_toNat {n : Nat} (h : n < 55296) :
    (Char.ofNat n).toNat = n := by
  unfold Char.ofNat
  rw [dif_pos (Or.inl h)]
  simp [Char.ofNatAux, Char.toNat, UInt32.toNat, BitVec.toNat_ofNatLt]

/-- Characters with equal code points are equal. -/
theorem char_eq_of_toNat_eq {c d : Char} (h : c.toNat = d.toNat) :
    c = d :=
  Char.eq_of_val_eq (UInt32.ext h)

/-- Checked `u8` addition succeeds when the sum fits. -/
theorem u8add_ok {a b : Nat} (h : a + b ≤ 255) : u8add a b = .ok (a + b) := by
  unfold u8add
  rw [if_pos h]

/-- Checked `u8` subtraction succeeds when no underflow occurs. -/
theorem u8sub_ok {a b : Nat} (h : b ≤ a) : u8sub a b = .ok (a - b) := by
  unfold u8sub
  rw [if_pos h]

/-- The ideal per-letter output is always below 26. -/
theorem outVal_lt (m : VigenereMode) (a s : Nat) : outVal m a s < 26 := by
  cases m <;> simp [outVal] <;> omega

/-- Decryption arithmetic undoes encryption arithmetic on the letter
values. -/
theorem outVal_roundtrip {a s : Nat} (ha : a < 26) (hs : s < 26) :
    outVal .Decrypt (outVal .Encrypt a s) s = a := by
  simp only [outVal]
  omega

/-- Behaviour of `letterStep` on a valid schedule position: the checked
`u8` arithmetic never trips and computes exactly the ideal modular
arithmetic `outVal`, the cursor advances one position with wraparound,
and the output is rendered on `altBase` exactly when `force_case` is the
branch's `alt` policy. -/
theorem letterStep_ok (m : VigenereMode) (d : List Nat) (fc : ForceCase)
    (i : Nat) (a base altBase : Nat) (alt : ForceCase)
    (hi : i < d.length) (hs : d[i] < 26) (ha : a < 26)
    (hbase : base = 65 ∨ base = 97) (haltBase : altBase = 65 ∨ altBase = 97) :
    letterStep m d fc i (base + a) base altBase alt =
      .ok (Char.ofNat ((if fc = alt then altBase else base) +
        outVal m a d[i]), (i + 1) % d.length) := by
  have hget : d.get? i = some d[i] := by
    rw [List.get?_eq_getElem?]
    exact List.getElem?_eq_getElem hi
  have hsub : u8sub (base + a) base = .ok a := by
    unfold u8sub
    rw [if_pos (Nat.le_add_right _ _)]
    simp
  have hout : shiftOutput m a d[i] = .ok (outVal m a d[i]) := by
    cases m
    · simp [shiftOutput, outVal, u8add_ok (show 26 + a ≤ 255 by omega),
        u8sub_ok (show d[i] ≤ 26 + a by omega)]
    · simp [shiftOutput, outVal,
        u8add_ok (show a + d[i] ≤ 255 by omega)]
  have hrender : ∀ B : Nat, B = 65 ∨ B = 97 →
      u8add B (outVal m a d[i]) = .ok (B + outVal m a d[i]) := by
    intro B hB
    have := outVal_lt m a d[i]
    unfold u8add
    rw [if_pos (by omega)]
  unfold letterStep
  rw [hget]
  simp only [hsub, hout]
  by_cases hfc : fc = alt
  · rw [if_pos hfc, if_pos hfc, hrender altBase haltBase]
  · rw [if_neg hfc, if_neg hfc, hrender base hbase]

/-- An uppercase letter is handled by the first branch of `next`: the
cast `as u8` is the identity on the code point, the shift at the cursor
is applied via `outVal`, and the cursor advances with wraparound. -/
theorem nextAux_upper_ok (m : VigenereMode) (d : List Nat)
    (fc : ForceCase) (nlm : NonLetterMode) (i : Nat) (ch : Char)
    (rest : List Char) (hch : 65 ≤ ch.toNat ∧ ch.toNat ≤ 90)
    (hi : i < d.length) (hs : d[i] < 26) :
    nextAux m d fc nlm i (ch :: rest) =
      .ok (some (Char.ofNat ((if fc = .ToLower then 97 else 65) +
          outVal m (ch.toNat - 65) d[i])),
        (i + 1) % d.length, rest) := by
  rw [nextAux, if_pos hch]
  rw [show ch.toNat % 256 = 65 + (ch.toNat - 65) from by omega]
  rw [letterStep_ok m d fc i (ch.toNat - 65) 65 97 .ToLower hi hs
    (by omega) (Or.inl rfl) (Or.inr rfl)]

/-- A lowercase letter is handled by the second branch of `next`,
symmetrically on base 97. -/
theorem nextAux_lower_ok (m : VigenereMode) (d : List Nat)
    (fc : ForceCase) (nlm : NonLetterMode) (i : Nat) (ch : Char)
    (rest : List Char) (hch : 97 ≤ ch.toNat ∧ ch.toNat ≤ 122)
    (hi : i < d.length) (hs : d[i] < 26) :
    nextAux m d fc nlm i (ch :: rest) =
      .ok (some (Char.ofNat ((if fc = .ToUpper then 65 else 97) +
          outVal m (ch.toNat - 97) d[i])),
        (i + 1) % d.length, rest) := by
  rw [nextAux, if_neg (by omega), if_pos hch]
  rw [show ch.toNat % 256 = 97 + (ch.toNat - 97) from by omega]
  rw [letterStep_ok m d fc i (ch.toNat - 97) 97 65 .ToUpper hi hs
    (by omega) (Or.inr rfl) (Or.inl rfl)]

/-- A non-letter under the `Keep` policy is emitted unchanged without
touching the cursor. -/
theorem nextAux_other_keep (m : VigenereMode) (d : List Nat)
    (fc : ForceCase) (i : Nat) (ch : Char) (rest : List Char)
    (hch : ¬ isLatinLetter ch) :
    nextAux m d fc .Keep i (ch :: rest) = .ok (some ch, i, rest) := by
  unfold isLatinLetter at hch
  push_neg at hch
  rw [nextAux, if_neg (by omega), if_neg (by omega)]
  simp

/-- A non-letter under the `Skip` policy is dropped without touching the
cursor: the call proceeds to the next upstream character. -/
theorem nextAux_other_skip (m : VigenereMode) (d : List Nat)
    (fc : ForceCase) (i : Nat) (ch : Char) (rest : List Char)
    (hch : ¬ isLatinLetter ch) :
    nextAux m d fc .Skip i (ch :: rest) = nextAux m d fc .Skip i rest := by
  unfold isLatinLetter at hch
  push_neg at hch
  rw [nextAux, if_neg (by omega), if_neg (by omega)]
  simp

/-- One call of `next` followed by the character-by-character run of the
remainder computes the whole character-by-character run. -/
theorem runList_eq_next (m : VigenereMode) (d : List Nat)
    (fc : ForceCase) (nlm : NonLetterMode) :
    ∀ (i : Nat) (xs : List Char),
      runList m d fc nlm i xs =
        match nextAux m d fc nlm i xs with
        | .error e => .error e
        | .ok (none, j, _) => .ok ([], j)
        | .ok (some c, i', rest) =>
          match runList m d fc nlm i' rest with
          | .error e => .error e
          | .ok (cs, j) => .ok (c :: cs, j)
  | i, [] => by simp [runList, nextAux]
  | i, ch :: rest => by
    simp only [runList, nextAux]
    by_cases h1 : 65 ≤ ch.toNat ∧ ch.toNat ≤ 90
    · rw [if_pos h1, if_pos h1]
      cases hls : letterStep m d fc i (ch.toNat % 256) 65 97 .ToLower with
      | error e => simp
      | ok p =>
        obtain ⟨c, i'⟩ := p
        simp
    · rw [if_neg h1, if_neg h1]
      by_cases h2 : 97 ≤ ch.toNat ∧ ch.toNat ≤ 122
      · rw [if_pos h2, if_pos h2]
        cases hls : letterStep m d fc i (ch.toNat % 256) 97 65 .ToUpper with
        | error e => simp
        | ok p =>
          obtain ⟨c, i'⟩ := p
          simp
      · rw [if_neg h2, if_neg h2]
        by_cases h3 : nlm = .Skip
        · rw [if_pos h3, if_pos h3]
          exact runList_eq_next m d fc nlm i rest
        · rw [if_neg h3, if_neg h3]

/-- Chaining `next` to exhaustion (`collectAux`) yields exactly the
output component of the character-by-character run. -/
theorem collectAux_eq_runList (m : VigenereMode) (d : List Nat)
    (fc : ForceCase) (nlm : NonLetterMode) (i : Nat) (xs : List Char) :
    collectAux m d fc nlm i xs =
      Except.map Prod.fst (runList m d fc nlm i xs) := by
  rw [collectAux, runList_eq_next m d fc nlm i xs]
  cases h : nextAux m d fc nlm i xs with
  | error e => simp [Except.map]
  | ok p =>
    obtain ⟨oc, i', rest⟩ := p
    cases oc with
    | none => simp [Except.map]
    | some c =>
      have hrec := collectAux_eq_runList m d fc nlm i' rest
      cases hr : runList m d fc nlm i' rest with
      | error e => simp [hrec, hr, Except.map]
      | ok q =>
        obtain ⟨cs, j⟩ := q
        simp [hrec, hr, Except.map]
termination_by xs.length
decreasing_by exact nextAux_some_length_lt m d fc nlm xs i c i' rest h

/-- Draining a `VigenereIterator` computes the character-by-character
run on its fields. -/
theorem collect_eq_runList (s : VigenereIterator) :
    s.collect = Except.map Prod.fst
      (runList s.mode s.distances s.force_case s.none_letter_mode
        s.index s.iter) :=
  collectAux_eq_runList s.mode s.distances s.force_case
    s.none_letter_mode s.index s.iter

/-- Elaborated form of `encryptChars` when the key schedule builds. -/
theorem encryptChars_ok (key text : List Char) (d : List Nat)
    (fco : Option ForceCase) (nlmo : Option NonLetterMode)
    (hd : keyDistances key = .ok d) :
    encryptChars text key fco nlmo =
      .ok ⟨.Encrypt, d, fco.getD .Keep, nlmo.getD .Keep, 0, text⟩ := by
  unfold encryptChars VigenereIterator.new
  rw [hd]
  cases fco <;> cases nlmo <;> rfl

/-- Elaborated form of `decryptChars` when the key schedule builds. -/
theorem decryptChars_ok (key text : List Char) (d : List Nat)
    (fco : Option ForceCase) (nlmo : Option NonLetterMode)
    (hd : keyDistances key = .ok d) :
    decryptChars text key fco nlmo =
      .ok ⟨.Decrypt, d, fco.getD .Keep, nlmo.getD .Keep, 0, text⟩ := by
  unfold decryptChars VigenereIterator.new
  rw [hd]
  cases fco <;> cases nlmo <;> rfl

/-- Evaluation bridge: the encrypt-collect pipeline is the
character-by-character run from cursor 0. -/
theorem encryptCollect_eval (key text : List Char) (d : List Nat)
    (fco : Option ForceCase) (nlmo : Option NonLetterMode)
    (hd : keyDistances key = .ok d) :
    encryptCollect text key fco nlmo =
      Except.map Prod.fst
        (runList .Encrypt d (fco.getD .Keep) (nlmo.getD .Keep) 0 text) := by
  unfold encryptCollect
  rw [encryptChars_ok key text d fco nlmo hd]
  exact collect_eq_runList _

/-- Evaluation bridge for the decrypt-collect pipeline. -/
theorem decryptCollect_eval (key text : List Char) (d : List Nat)
    (fco : Option ForceCase) (nlmo : Option NonLetterMode)
    (hd : keyDistances key = .ok d) :
    decryptCollect text key fco nlmo =
      Except.map Prod.fst
        (runList .Decrypt d (fco.getD .Keep) (nlmo.getD .Keep) 0 text) := by
  unfold decryptCollect
  rw [decryptChars_ok key text d fco nlmo hd]
  exact collect_eq_runList _

/-- Evaluation bridge for the façade's `encrypt`. -/
theorem facade_encrypt_eval (key text : List Char) (d : List Nat)
    (hd : keyDistances key = .ok d) :
    (Vigenere.new key).encrypt text =
      Except.map Prod.fst (runList .Encrypt d .Keep .Keep 0 text) := by
  unfold Vigenere.encrypt
  exact encryptCollect_eval key text d none none hd

/-- Evaluation bridge for the façade's `decrypt`. -/
theorem facade_decrypt_eval (key text : List Char) (d : List Nat)
    (hd : keyDistances key = .ok d) :
    (Vigenere.new key).decrypt text =
      Except.map Prod.fst (runList .Decrypt d .Keep .Keep 0 text) := by
  unfold Vigenere.decrypt
  exact decryptCollect_eval key text d none none hd

/-- On a key of Latin letters the schedule construction succeeds, with
one shift per key character, every shift below 26. -/
theorem keyDistances_valid :
    ∀ (key : List Char), (∀ c ∈ key, isLatinLetter c) →
      ∃ d, keyDistances key = .ok d ∧ d.length = key.length ∧
        ∀ x ∈ d, x < 26
  | [], _ => ⟨[], rfl, rfl, by simp⟩
  | c :: key, h => by
    obtain ⟨d, hd, hlen, hlt⟩ := keyDistances_valid key
      (fun x hx => h x (List.mem_cons_of_mem _ hx))
    have hc : isLatinLetter c := h c (List.mem_cons_self _ _)
    have hv : ∃ v, u8sub ((toUppercaseFirst c).toNat % 256) 65 = .ok v ∧
        v < 26 := by
      cases hc with
      | inl hu =>
        have hup : toUppercaseFirst c = c := by
          unfold toUppercaseFirst
          rw [if_neg (by omega)]
        rw [hup, Nat.mod_eq_of_lt (by omega)]
        exact ⟨c.toNat - 65, u8sub_ok (by omega), by omega⟩
      | inr hl =>
        have hup : (toUppercaseFirst c).toNat = c.toNat - 32 := by
          unfold toUppercaseFirst
          rw [if_pos hl]
          exact char_ofNat_toNat (by omega)
        rw [hup, Nat.mod_eq_of_lt (by omega)]
        exact ⟨c.toNat - 32 - 65, u8sub_ok (by omega), by omega⟩
    obtain ⟨v, hv, hvlt⟩ := hv
    refine ⟨v :: d, ?_, by simp [hlen], ?_⟩
    · unfold keyDistances
      rw [hv, hd]
    · intro x hx
      rcases List.mem_cons.mp hx with hx | hx
      · omega
      · exact hlt x hx

/-- Branch lemma: an uppercase letter at the head of a run applies the
shift at the cursor and advances it with wraparound. -/
theorem runList_upper (m : VigenereMode) (d : List Nat) (fc : ForceCase)
    (nlm : NonLetterMode) (i : Nat) (ch : Char) (rest : List Char)
    (hch : 65 ≤ ch.toNat ∧ ch.toNat ≤ 90)
    (hi : i < d.length) (hs : d[i] < 26) :
    runList m d fc nlm i (ch :: rest) =
      match runList m d fc nlm ((i + 1) % d.length) rest with
      | .error e => .error e
      | .ok (cs, j) =>
        .ok (Char.ofNat ((if fc = .ToLower then 97 else 65) +
          outVal m (ch.toNat - 65) d[i]) :: cs, j) := by
  simp only [runList]
  rw [if_pos hch]
  rw [show ch.toNat % 256 = 65 + (ch.toNat - 65) from by omega]
  rw [letterStep_ok m d fc i (ch.toNat - 65) 65 97 .ToLower hi hs
    (by omega) (Or.inl rfl) (Or.inr rfl)]

/-- Branch lemma: a lowercase letter, symmetrically on base 97. -/
theorem runList_lower (m : VigenereMode) (d : List Nat) (fc : ForceCase)
    (nlm : NonLetterMode) (i : Nat) (ch : Char) (rest : List Char)
    (hch : 97 ≤ ch.toNat ∧ ch.toNat ≤ 122)
    (hi : i < d.length) (hs : d[i] < 26) :
    runList m d fc nlm i (ch :: rest) =
      match runList m d fc nlm ((i + 1) % d.length) rest with
      | .error e => .error e
      | .ok (cs, j) =>
        .ok (Char.ofNat ((if fc = .ToUpper then 65 else 97) +
          outVal m (ch.toNat - 97) d[i]) :: cs, j) := by
  simp only [runList]
  rw [if_neg (by omega), if_pos hch]
  rw [show ch.toNat % 256 = 97 + (ch.toNat - 97) from by omega]
  rw [letterStep_ok m d fc i (ch.toNat - 97) 97 65 .ToUpper hi hs
    (by omega) (Or.inr rfl) (Or.inl rfl)]

/-- Branch lemma: a non-letter under `Keep` passes through unchanged and
leaves the cursor alone. -/
theorem runList_other_keep (m : VigenereMode) (d : List Nat)
    (fc : ForceCase) (i : Nat) (ch : Char) (rest : List Char)
    (hch : ¬ isLatinLetter ch) :
    runList m d fc .Keep i (ch :: rest) =
      match runList m d fc .Keep i rest with
      | .error e => .error e
      | .ok (cs, j) => .ok (ch :: cs, j) := by
  unfold isLatinLetter at hch
  push_neg at hch
  simp only [runList]
  rw [if_neg (by omega), if_neg (by omega), if_neg (by simp)]

/-- Branch lemma: a non-letter under `Skip` is dropped and leaves the
cursor alone. -/
theorem runList_other_skip (m : VigenereMode) (d : List Nat)
    (fc : ForceCase) (i : Nat) (ch : Char) (rest : List Char)
    (hch : ¬ isLatinLetter ch) :
    runList m d fc .Skip i (ch :: rest) = runList m d fc .Skip i rest := by
  unfold isLatinLetter at hch
  push_neg at hch
  simp only [runList]
  rw [if_neg (by omega), if_neg (by omega)]
  simp

/-- Totality of a whole run on a well-formed schedule: it never errors
and keeps the cursor in bounds, for every mode, policy and input. -/
theorem runList_ok_of_good (m : VigenereMode) (d : List Nat)
    (fc : ForceCase) (nlm : NonLetterMode) (hne : d ≠ [])
    (hlt : ∀ x ∈ d, x < 26) :
    ∀ (xs : List Char) (i : Nat), i < d.length →
      ∃ out j, runList m d fc nlm i xs = .ok (out, j) ∧ j < d.length
  | [], i, hi => ⟨[], i, rfl, hi⟩
  | ch :: rest, i, hi => by
    have hmod : (i + 1) % d.length < d.length :=
      Nat.mod_lt _ (List.length_pos.mpr hne)
    by_cases h1 : 65 ≤ ch.toNat ∧ ch.toNat ≤ 90
    · obtain ⟨out, j, hrun, hj⟩ :=
        runList_ok_of_good m d fc nlm hne hlt rest ((i + 1) % d.length) hmod
      rw [runList_upper m d fc nlm i ch rest h1 hi
        (hlt _ (List.getElem_mem hi)), hrun]
      exact ⟨_, j, rfl, hj⟩
    · by_cases h2 : 97 ≤ ch.toNat ∧ ch.toNat ≤ 122
      · obtain ⟨out, j, hrun, hj⟩ :=
          runList_ok_of_good m d fc nlm hne hlt rest ((i + 1) % d.length) hmod
        rw [runList_lower m d fc nlm i ch rest h2 hi
          (hlt _ (List.getElem_mem hi)), hrun]
        exact ⟨_, j, rfl, hj⟩
      · have hch : ¬ isLatinLetter ch := by
          unfold isLatinLetter
          tauto
        obtain ⟨out, j, hrun, hj⟩ :=
          runList_ok_of_good m d fc nlm hne hlt rest i hi
        cases nlm with
        | Keep =>
          rw [runList_other_keep m d fc i ch rest hch, hrun]
          exact ⟨_, j, rfl, hj⟩
        | Skip =>
          rw [runList_other_skip m d fc i ch rest hch, hrun]
          exact ⟨_, j, rfl, hj⟩

/-- Under the `Keep` non-letter policy a run on a well-formed schedule
emits exactly one character per input character. -/
theorem runList_keep_length (m : VigenereMode) (d : List Nat)
    (fc : ForceCase) (hne : d ≠ []) (hlt : ∀ x ∈ d, x < 26) :
    ∀ (xs : List Char) (i : Nat), i < d.length →
      ∃ out j, runList m d fc .Keep i xs = .ok (out, j) ∧
        out.length = xs.length
  | [], i, hi => ⟨[], i, rfl, rfl⟩
  | ch :: rest, i, hi => by
    have hmod : (i + 1) % d.length < d.length :=
      Nat.mod_lt _ (List.length_pos.mpr hne)
    by_cases h1 : 65 ≤ ch.toNat ∧ ch.toNat ≤ 90
    · obtain ⟨out, j, hrun, hlen⟩ :=
        runList_keep_length m d fc hne hlt rest ((i + 1) % d.length) hmod
      rw [runList_upper m d fc .Keep i ch rest h1 hi
        (hlt _ (List.getElem_mem hi)), hrun]
      exact ⟨_, j, rfl, by simp [hlen]⟩
    · by_cases h2 : 97 ≤ ch.toNat ∧ ch.toNat ≤ 122
      · obtain ⟨out, j, hrun, hlen⟩ :=
          runList_keep_length m d fc hne hlt rest ((i + 1) % d.length) hmod
        rw [runList_lower m d fc .Keep i ch rest h2 hi
          (hlt _ (List.getElem_mem hi)), hrun]
        exact ⟨_, j, rfl, by simp [hlen]⟩
      · obtain ⟨out, j, hrun, hlen⟩ :=
          runList_keep_length m d fc hne hlt rest i hi
        rw [runList_other_keep m d fc i ch rest
          (by unfold isLatinLetter; tauto), hrun]
        exact ⟨_, j, rfl, by simp [hlen]⟩

/-- A run never emits more characters than it consumes, under any policy
and any schedule (no buffering). -/
theorem runList_length_le (m : VigenereMode) (d : List Nat)
    (fc : ForceCase) (nlm : NonLetterMode) (xs : List Char) :
    ∀ (i : Nat) (out : List Char) (j : Nat),
      runList m d fc nlm i xs = .ok (out, j) →
      out.length ≤ xs.length := by
  intro i out j h
  rw [runList_eq_next m d fc nlm i xs] at h
  cases hn : nextAux m d fc nlm i xs with
  | error e =>
    rw [hn] at h
    exact absurd h (by simp)
  | ok p =>
    obtain ⟨oc, i', rest⟩ := p
    rw [hn] at h
    cases oc with
    | none =>
      simp only [Except.ok.injEq, Prod.mk.injEq] at h
      rw [← h.1]
      simp
    | some c =>
      have hwf := nextAux_some_length_lt m d fc nlm xs i c i' rest hn
      simp only [] at h
      cases hr : runList m d fc nlm i' rest with
      | error e =>
        rw [hr] at h
        exact absurd h (by simp)
      | ok q =>
        obtain ⟨cs, j0⟩ := q
        rw [hr] at h
        simp only [Except.ok.injEq, Prod.mk.injEq] at h
        have hrec := runList_length_le m d fc nlm rest i' cs j0 hr
        rw [← h.1]
        simp only [List.length_cons]
        omega
termination_by xs.length
decreasing_by exact hwf

/-- Under the `Skip` policy a run computes exactly the run of the
letters-only subsequence of its input: non-letters contribute nothing
and consume no key position. -/
theorem runList_skip_filter (m : VigenereMode) (d : List Nat)
    (fc : ForceCase) :
    ∀ (i : Nat) (xs : List Char),
      runList m d fc .Skip i xs =
        runList m d fc .Skip i (xs.filter isLatinLetterB)
  | i, [] => rfl
  | i, ch :: rest => by
    by_cases hch : isLatinLetter ch
    · have hb : isLatinLetterB ch = true := by
        simp [isLatinLetterB, hch]
      rw [List.filter_cons_of_pos hb]
      simp only [runList]
      rcases hch with h1 | h2
      · rw [if_pos h1, if_pos h1]
        cases hls : letterStep m d fc i (ch.toNat % 256) 65 97 .ToLower with
        | error e => rfl
        | ok p =>
          obtain ⟨c, i'⟩ := p
          simp only []
          rw [runList_skip_filter m d fc i' rest]
      · rw [if_neg (by omega), if_pos h2, if_neg (by omega), if_pos h2]
        cases hls : letterStep m d fc i (ch.toNat % 256) 97 65 .ToUpper with
        | error e => rfl
        | ok p =>
          obtain ⟨c, i'⟩ := p
          simp only []
          rw [runList_skip_filter m d fc i' rest]
    · have hb : isLatinLetterB ch = false := by
        simp [isLatinLetterB, hch]
      rw [List.filter_cons_of_neg (by simp [hb])]
      rw [runList_other_skip m d fc i ch rest hch]
      exact runList_skip_filter m d fc i rest

/-- Round trip at the level of runs: decrypting the output of an
encrypting run with the same schedule and the same starting cursor
recovers the input and the same final cursor, under `Keep`/`Keep`. -/
theorem runList_roundtrip (d : List Nat) (hne : d ≠ [])
    (hlt : ∀ x ∈ d, x < 26) :
    ∀ (xs : List Char) (i : Nat), i < d.length →
      ∃ ys j, runList .Encrypt d .Keep .Keep i xs = .ok (ys, j) ∧
        runList .Decrypt d .Keep .Keep i ys = .ok (xs, j)
  | [], i, hi => ⟨[], i, rfl, rfl⟩
  | ch :: rest, i, hi => by
    have hs : d[i] < 26 := hlt _ (List.getElem_mem hi)
    have hmod : (i + 1) % d.length < d.length :=
      Nat.mod_lt _ (List.length_pos.mpr hne)
    obtain ⟨ys, j, henc, hdec⟩ :=
      runList_roundtrip d hne hlt rest ((i + 1) % d.length) hmod
    by_cases h1 : 65 ≤ ch.toNat ∧ ch.toNat ≤ 90
    · have hklt : outVal .Encrypt (ch.toNat - 65) d[i] < 26 := outVal_lt _ _ _
      have hcenc : (Char.ofNat (65 + outVal .Encrypt (ch.toNat - 65) d[i])).toNat
          = 65 + outVal .Encrypt (ch.toNat - 65) d[i] :=
        char_ofNat_toNat (by omega)
      refine ⟨Char.ofNat (65 + outVal .Encrypt (ch.toNat - 65) d[i]) :: ys, j,
        ?_, ?_⟩
      · rw [runList_upper .Encrypt d .Keep .Keep i ch rest h1 hi hs, henc]
        simp
      · rw [runList_upper .Decrypt d .Keep .Keep i _ ys
          (by rw [hcenc]; omega) hi hs, hdec]
        have hback : Char.ofNat
            ((if ForceCase.Keep = ForceCase.ToLower then 97 else 65) +
              outVal .Decrypt
                ((Char.ofNat (65 + outVal .Encrypt (ch.toNat - 65) d[i])).toNat
                  - 65) d[i]) = ch := by
          rw [if_neg (by simp), hcenc,
            show 65 + outVal .Encrypt (ch.toNat - 65) d[i] - 65 =
              outVal .Encrypt (ch.toNat - 65) d[i] from by omega,
            outVal_roundtrip (by omega) (by omega)]
          apply char_eq_of_toNat_eq
          rw [char_ofNat_toNat (by omega)]
          omega
        rw [hback]
    · by_cases h2 : 97 ≤ ch.toNat ∧ ch.toNat ≤ 122
      · have hklt : outVal .Encrypt (ch.toNat - 97) d[i] < 26 := outVal_lt _ _ _
        have hcenc : (Char.ofNat (97 + outVal .Encrypt (ch.toNat - 97) d[i])).toNat
            = 97 + outVal .Encrypt (ch.toNat - 97) d[i] :=
          char_ofNat_toNat (by omega)
        refine ⟨Char.ofNat (97 + outVal .Encrypt (ch.toNat - 97) d[i]) :: ys, j,
          ?_, ?_⟩
        · rw [runList_lower .Encrypt d .Keep .Keep i ch rest h2 hi hs, henc]
          simp
        · rw [runList_lower .Decrypt d .Keep .Keep i _ ys
            (by rw [hcenc]; omega) hi hs, hdec]
          have hback : Char.ofNat
              ((if ForceCase.Keep = ForceCase.ToUpper then 65 else 97) +
                outVal .Decrypt
                  ((Char.ofNat (97 + outVal .Encrypt (ch.toNat - 97) d[i])).toNat
                    - 97) d[i]) = ch := by
            rw [if_neg (by simp), hcenc,
              show 97 + outVal .Encrypt (ch.toNat - 97) d[i] - 97 =
                outVal .Encrypt (ch.toNat - 97) d[i] from by omega,
              outVal_roundtrip (by omega) (by omega)]
            apply char_eq_of_toNat_eq
            rw [char_ofNat_toNat (by omega)]
            omega
          rw [hback]
      · have hch : ¬ isLatinLetter ch := by
          unfold isLatinLetter
          tauto
        obtain ⟨ys0, j0, henc0, hdec0⟩ :=
          runList_roundtrip d hne hlt rest i hi
        refine ⟨ch :: ys0, j0, ?_, ?_⟩
        · rw [runList_other_keep .Encrypt d .Keep i ch rest hch, henc0]
        · rw [runList_other_keep .Decrypt d .Keep i ch ys0 hch, hdec0]

/-- The shift computation only returns values below 26. -/
theorem shiftOutput_ok_lt (m : VigenereMode) (a s o : Nat)
    (h : shiftOutput m a s = .ok o) : o < 26 := by
  cases m
  · simp only [shiftOutput] at h
    cases hu : u8add 26 a with
    | error e =>
      rw [hu] at h
      exact absurd h (by simp)
    | ok t =>
      rw [hu] at h
      simp only [] at h
      cases hv : u8sub t s with
      | error e =>
        rw [hv] at h
        exact absurd h (by simp)
      | ok t2 =>
        rw [hv] at h
        simp only [Except.ok.injEq] at h
        omega
  · simp only [shiftOutput] at h
    cases hu : u8add a s with
    | error e =>
      rw [hu] at h
      exact absurd h (by simp)
    | ok t =>
      rw [hu] at h
      simp only [Except.ok.injEq] at h
      omega

/-- The case policy never decides success, failure, or the new cursor of
a letter step: two runs of `letterStep` differing only in `force_case`
either fail with the same error or both succeed with the same advanced
cursor (only the emitted character may differ in case). -/
theorem letterStep_fc_pair (m : VigenereMode) (d : List Nat)
    (i chByte base altBase : Nat) (alt : ForceCase) (fc fc' : ForceCase)
    (hbase : base ≤ 97) (haltBase : altBase ≤ 97) :
    (∃ e, letterStep m d fc i chByte base altBase alt = .error e ∧
      letterStep m d fc' i chByte base altBase alt = .error e) ∨
    (∃ c c',
      letterStep m d fc i chByte base altBase alt =
        .ok (c, (i + 1) % d.length) ∧
      letterStep m d fc' i chByte base altBase alt =
        .ok (c', (i + 1) % d.length)) := by
  unfold letterStep
  cases hg : d.get? i with
  | none => exact Or.inl ⟨.indexOutOfBounds, rfl, rfl⟩
  | some dist =>
    simp only []
    cases hsub : u8sub chByte base with
    | error e => exact Or.inl ⟨e, rfl, rfl⟩
    | ok input =>
      simp only []
      cases hso : shiftOutput m input dist with
      | error e => exact Or.inl ⟨e, rfl, rfl⟩
      | ok output =>
        have ho : output < 26 := shiftOutput_ok_lt m input dist output hso
        simp only []
        right
        by_cases hf : fc = alt <;> by_cases hf' : fc' = alt
        · rw [if_pos hf, if_pos hf', u8add_ok (show altBase + output ≤ 255 by omega)]
          exact ⟨_, _, rfl, rfl⟩
        · rw [if_pos hf, if_neg hf', u8add_ok (show altBase + output ≤ 255 by omega),
            u8add_ok (show base + output ≤ 255 by omega)]
          exact ⟨_, _, rfl, rfl⟩
        · rw [if_neg hf, if_pos hf', u8add_ok (show altBase + output ≤ 255 by omega),
            u8add_ok (show base + output ≤ 255 by omega)]
          exact ⟨_, _, rfl, rfl⟩
        · rw [if_neg hf, if_neg hf', u8add_ok (show base + output ≤ 255 by omega)]
          exact ⟨_, _, rfl, rfl⟩

/-- Consing possibly different heads onto runs with equal error/cursor
structure preserves that structure. -/
theorem map_snd_cons_match (c c' : Char)
    (r r' : Except RtError (List Char × Nat))
    (h : Except.map Prod.snd r = Except.map Prod.snd r') :
    Except.map Prod.snd
      (match r with
       | .error e => .error e
       | .ok (cs, j) => .ok (c :: cs, j)) =
    Except.map Prod.snd
      (match r' with
       | .error e => .error e
       | .ok (cs, j) => .ok (c' :: cs, j)) := by
  cases r with
  | error e =>
    cases r' with
    | error e2 => simpa [Except.map] using h
    | ok q => simp [Except.map] at h
  | ok q =>
    cases r' with
    | error e2 => simp [Except.map] at h
    | ok q2 =>
      obtain ⟨cs, j⟩ := q
      obtain ⟨cs2, j2⟩ := q2
      simp [Except.map] at h ⊢
      exact h

/-- The error/final-cursor trace of a whole run is independent of the
case policy: only the case of the emitted letters can change. -/
theorem runList_snd_fc (m : VigenereMode) (d : List Nat)
    (nlm : NonLetterMode) (fc fc' : ForceCase) :
    ∀ (xs : List Char) (i : Nat),
      Except.map Prod.snd (runList m d fc nlm i xs) =
      Except.map Prod.snd (runList m d fc' nlm i xs)
  | [], i => rfl
  | ch :: rest, i => by
    simp only [runList]
    by_cases h1 : 65 ≤ ch.toNat ∧ ch.toNat ≤ 90
    · rw [if_pos h1, if_pos h1]
      rcases letterStep_fc_pair m d i (ch.toNat % 256) 65 97 .ToLower fc fc'
        (by omega) (by omega) with ⟨e, hl, hr⟩ | ⟨c, c', hl, hr⟩
      · rw [hl, hr]
      · rw [hl, hr]
        simp only []
        exact map_snd_cons_match c c' _ _
          (runList_snd_fc m d nlm fc fc' rest ((i + 1) % d.length))
    · rw [if_neg h1, if_neg h1]
      by_cases h2 : 97 ≤ ch.toNat ∧ ch.toNat ≤ 122
      · rw [if_pos h2, if_pos h2]
        rcases letterStep_fc_pair m d i (ch.toNat % 256) 97 65 .ToUpper fc fc'
          (by omega) (by omega) with ⟨e, hl, hr⟩ | ⟨c, c', hl, hr⟩
        · rw [hl, hr]
        · rw [hl, hr]
          simp only []
          exact map_snd_cons_match c c' _ _
            (runList_snd_fc m d nlm fc fc' rest ((i + 1) % d.length))
      · rw [if_neg h2, if_neg h2]
        by_cases h3 : nlm = .Skip
        · rw [if_pos h3, if_pos h3]
          exact runList_snd_fc m d nlm fc fc' rest i
        · rw [if_neg h3, if_neg h3]
          exact map_snd_cons_match ch ch _ _
            (runList_snd_fc m d nlm fc fc' rest i)

/-- The two letter branches do the same shift lookup and cursor update
for the same letter value `a`, whether the letter arrived as uppercase
(byte `65 + a`) or lowercase (byte `97 + a`): both fail with the same
error or both succeed with the same advanced cursor. -/
theorem letterStep_swap_pair (m : VigenereMode) (d : List Nat)
    (fc : ForceCase) (i a : Nat) :
    (∃ e, letterStep m d fc i (65 + a) 65 97 .ToLower = .error e ∧
      letterStep m d fc i (97 + a) 97 65 .ToUpper = .error e) ∨
    (∃ c c',
      letterStep m d fc i (65 + a) 65 97 .ToLower =
        .ok (c, (i + 1) % d.length) ∧
      letterStep m d fc i (97 + a) 97 65 .ToUpper =
        .ok (c', (i + 1) % d.length)) := by
  unfold letterStep
  cases hg : d.get? i with
  | none => exact Or.inl ⟨.indexOutOfBounds, rfl, rfl⟩
  | some dist =>
    simp only []
    rw [u8sub_ok (show (65 : Nat) ≤ 65 + a by omega),
      u8sub_ok (show (97 : Nat) ≤ 97 + a by omega),
      show 65 + a - 65 = a from by omega, show 97 + a - 97 = a from by omega]
    simp only []
    cases hso : shiftOutput m a dist with
    | error e => exact Or.inl ⟨e, rfl, rfl⟩
    | ok output =>
      have ho : output < 26 := shiftOutput_ok_lt m a dist output hso
      simp only []
      right
      by_cases hf1 : fc = .ToLower <;> by_cases hf2 : fc = .ToUpper
      · rw [hf1] at hf2
        exact absurd hf2 (by simp)
      · rw [if_pos hf1, if_neg hf2,
          u8add_ok (show 97 + output ≤ 255 by omega)]
        exact ⟨_, _, rfl, rfl⟩
      · rw [if_neg hf1, if_pos hf2,
          u8add_ok (show 65 + output ≤ 255 by omega)]
        exact ⟨_, _, rfl, rfl⟩
      · rw [if_neg hf1, if_neg hf2,
          u8add_ok (show 65 + output ≤ 255 by omega),
          u8add_ok (show 97 + output ≤ 255 by omega)]
        exact ⟨_, _, rfl, rfl⟩

/-- The error/final-cursor trace of a whole run is insensitive to the
case of the input letters: swapping the case of every input character
changes at most the emitted characters. -/
theorem runList_snd_swapcase (m : VigenereMode) (d : List Nat)
    (fc : ForceCase) (nlm : NonLetterMode) :
    ∀ (xs : List Char) (i : Nat),
      Except.map Prod.snd (runList m d fc nlm i xs) =
      Except.map Prod.snd (runList m d fc nlm i (xs.map toOppositeCase))
  | [], i => rfl
  | ch :: rest, i => by
    rw [List.map_cons]
    by_cases h1 : 65 ≤ ch.toNat ∧ ch.toNat ≤ 90
    · have hsw : (toOppositeCase ch).toNat = ch.toNat + 32 := by
        unfold toOppositeCase
        rw [if_pos h1]
        exact char_ofNat_toNat (by omega)
      simp only [runList]
      rw [if_pos h1, if_neg (by omega), if_pos (by omega)]
      rw [show ch.toNat % 256 = 65 + (ch.toNat - 65) from by omega,
        show (toOppositeCase ch).toNat % 256 = 97 + (ch.toNat - 65) from by
          omega]
      rcases letterStep_swap_pair m d fc i (ch.toNat - 65) with
        ⟨e, hl, hr⟩ | ⟨c, c', hl, hr⟩
      · rw [hl, hr]
      · rw [hl, hr]
        simp only []
        exact map_snd_cons_match c c' _ _
          (runList_snd_swapcase m d fc nlm rest ((i + 1) % d.length))
    · by_cases h2 : 97 ≤ ch.toNat ∧ ch.toNat ≤ 122
      · have hsw : (toOppositeCase ch).toNat = ch.toNat - 32 := by
          unfold toOppositeCase
          rw [if_neg (by omega), if_pos h2]
          exact char_ofNat_toNat (by omega)
        simp only [runList]
        rw [if_neg (by omega), if_pos h2, if_pos (by omega)]
        rw [show ch.toNat % 256 = 97 + (ch.toNat - 97) from by omega,
          show (toOppositeCase ch).toNat % 256 = 65 + (ch.toNat - 97) from by
            omega]
        rcases letterStep_swap_pair m d fc i (ch.toNat - 97) with
          ⟨e, hl, hr⟩ | ⟨c, c', hl, hr⟩
        · rw [hl, hr]
        · rw [hl, hr]
          simp only []
          exact map_snd_cons_match c' c _ _
            (runList_snd_swapcase m d fc nlm rest ((i + 1) % d.length))
      · have hch : ¬ isLatinLetter ch := by
          unfold isLatinLetter
          tauto
        have hsw : toOppositeCase ch = ch := by
          unfold toOppositeCase
          rw [if_neg (by omega), if_neg (by omega)]
        rw [hsw]
        cases nlm with
        | Keep =>
          rw [runList_other_keep m d fc i ch rest hch,
            runList_other_keep m d fc i ch (rest.map toOppositeCase) hch]
          exact map_snd_cons_match ch ch _ _
            (runList_snd_swapcase m d fc .Keep rest i)
        | Skip =>
          rw [runList_other_skip m d fc i ch rest hch,
            runList_other_skip m d fc i ch (rest.map toOppositeCase) hch]
          exact runList_snd_swapcase m d fc .Skip rest i

/-- Consing a pass-through character onto a run's output does not change
its error/final-cursor structure. -/
theorem map_snd_cons_id (c : Char) (r : Except RtError (List Char × Nat)) :
    Except.map Prod.snd
      (match r with
       | .error e => .error e
       | .ok (cs, j) => .ok (c :: cs, j)) =
    Except.map Prod.snd r := by
  cases r with
  | error e => rfl
  | ok q =>
    obtain ⟨cs, j⟩ := q
    rfl

/-- Under the `Keep` policy the error/final-cursor trace of a run
depends only on the letter subsequence of the input: pass-through
non-letters never touch the cursor. -/
theorem runList_keep_snd_filter (m : VigenereMode) (d : List Nat)
    (fc : ForceCase) :
    ∀ (i : Nat) (xs : List Char),
      Except.map Prod.snd (runList m d fc .Keep i xs) =
      Except.map Prod.snd (runList m d fc .Keep i
        (xs.filter isLatinLetterB))
  | i, [] => rfl
  | i, ch :: rest => by
    by_cases hch : isLatinLetter ch
    · rw [List.filter_cons_of_pos (by simp [isLatinLetterB, hch])]
      simp only [runList]
      rcases hch with h1 | h2
      · rw [if_pos h1, if_pos h1]
        cases hls : letterStep m d fc i (ch.toNat % 256) 65 97 .ToLower with
        | error e => rfl
        | ok p =>
          obtain ⟨c, i'⟩ := p
          simp only []
          exact map_snd_cons_match c c _ _
            (runList_keep_snd_filter m d fc i' rest)
      · rw [if_neg (by omega), if_pos h2, if_neg (by omega), if_pos h2]
        cases hls : letterStep m d fc i (ch.toNat % 256) 97 65 .ToUpper with
        | error e => rfl
        | ok p =>
          obtain ⟨c, i'⟩ := p
          simp only []
          exact map_snd_cons_match c c _ _
            (runList_keep_snd_filter m d fc i' rest)
    · rw [List.filter_cons_of_neg (by simp [isLatinLetterB, hch])]
      rw [runList_other_keep m d fc i ch rest hch]
      rw [map_snd_cons_id ch (runList m d fc .Keep i rest)]
      exact runList_keep_snd_filter m d fc i rest

/-- Claim C1: round-trip inverse law — for every text and every
non-empty key of Latin letters, decrypting the encryption of the text
with the same key through the façade (whose fixed policies are
`Keep`/`Keep`) returns the original text. -/
theorem spec_c1_roundtrip (key text : List Char) (hkey : ValidKey key) :
    ∃ ct, (Vigenere.new key).encrypt text = .ok ct ∧
      (Vigenere.new key).decrypt ct = .ok text := by
  obtain ⟨d, hd, hlen, hlt⟩ := keyDistances_valid key hkey.2
  have hne : d ≠ [] := by
    have : key.length ≠ 0 := fun h0 => hkey.1 (List.length_eq_zero.mp h0)
    intro h0
    rw [h0] at hlen
    exact this (hlen.symm)
  obtain ⟨ys, j, henc, hdec⟩ := runList_roundtrip d hne hlt text 0
    (List.length_pos.mpr hne)
  refine ⟨ys, ?_, ?_⟩
  · rw [facade_encrypt_eval key text d hd, henc]
    rfl
  · rw [facade_decrypt_eval key ys d hd, hdec]
    rfl

/-- Witness for C1 at key `"B"`, text `"HI"`. -/
theorem spec_c1_roundtrip_witness :
    ∃ ct, (Vigenere.new "B".toList).encrypt "HI".toList = .ok ct ∧
      (Vigenere.new "B".toList).decrypt ct = .ok "HI".toList :=
  spec_c1_roundtrip "B".toList "HI".toList (by decide)

/-- Claim C2, counterexample: constructing with an empty key does NOT
fail — there is no validation and no typed error at construction; under
an empty key a non-letter IS consumed (and passed through), and the run
fails only when the first letter is processed, with an
index-out-of-bounds panic rather than a typed `InvalidKey` value. -/
theorem spec_c2_counterexample :
    VigenereIterator.new .Encrypt [] ['-', 'A'] =
      .ok ⟨.Encrypt, [], .Keep, .Keep, 0, ['-', 'A']⟩ ∧
    nextAux .Encrypt [] .Keep .Keep 0 ['-', 'A'] =
      .ok (some '-', 0, ['A']) ∧
    (⟨.Encrypt, [], .Keep, .Keep, 0, ['-', 'A']⟩ :
      VigenereIterator).collect = .error .indexOutOfBounds := by
  refine ⟨rfl, rfl, ?_⟩
  rw [collect_eq_runList]
  rfl

/-- Claim C2, amended: construction with an empty key always succeeds
(no key validation exists and no typed error is ever produced at
construction); with an empty key, processing the first letter of the
input panics with an index-out-of-bounds error at that step — the
failure is deferred to first letter use, and input characters before it
are consumed normally. -/
theorem spec_c2_amended (mode : VigenereMode) (iter : List Char)
    (fc : ForceCase) (nlm : NonLetterMode) (i : Nat) (ch : Char)
    (rest : List Char) (hch : isLatinLetter ch) :
    VigenereIterator.new mode [] iter =
      .ok ⟨mode, [], .Keep, .Keep, 0, iter⟩ ∧
    nextAux mode [] fc nlm i (ch :: rest) = .error .indexOutOfBounds := by
  refine ⟨rfl, ?_⟩
  rcases hch with h1 | h2
  · rw [nextAux, if_pos h1]
    rw [show letterStep mode [] fc i (ch.toNat % 256) 65 97 .ToLower =
      .error .indexOutOfBounds from rfl]
  · rw [nextAux, if_neg (by omega), if_pos h2]
    rw [show letterStep mode [] fc i (ch.toNat % 256) 97 65 .ToUpper =
      .error .indexOutOfBounds from rfl]

/-- Witness for the amended C2 at the letter `'A'`. -/
theorem spec_c2_amended_witness :
    VigenereIterator.new .Encrypt [] ['A'] =
      .ok ⟨.Encrypt, [], .Keep, .Keep, 0, ['A']⟩ ∧
    nextAux .Encrypt [] .Keep .Keep 0 ('A' :: []) =
      .error .indexOutOfBounds :=
  spec_c2_amended .Encrypt ['A'] .Keep .Keep 0 'A' [] (by decide)

/-- Claim C3: per-letter step arithmetic — on a schedule of shifts below
26 with the cursor in bounds, consuming an uppercase letter uses the
shift at the cursor, advances the cursor by one modulo the schedule
length, computes `outVal` (`(value + shift) % 26` encrypting,
`(26 + value - shift) % 26` decrypting) on `value = ch - 'A'`, and emits
`'A' + result`, lowered exactly when the case policy is `ToLower`; a
lowercase letter runs the identical arithmetic on base `'a'`, raised
exactly when the case policy is `ToUpper`. -/
theorem spec_c3_letter_step (s : VigenereIterator)
    (hlt : ∀ x ∈ s.distances, x < 26)
    (hi : s.index < s.distances.length) (ch : Char) (rest : List Char)
    (hiter : s.iter = ch :: rest) :
    (65 ≤ ch.toNat ∧ ch.toNat ≤ 90 →
      s.next = .ok (some (Char.ofNat
        ((if s.force_case = .ToLower then 97 else 65) +
          outVal s.mode (ch.toNat - 65) s.distances[s.index])),
        { s with index := (s.index + 1) % s.distances.length,
                 iter := rest })) ∧
    (97 ≤ ch.toNat ∧ ch.toNat ≤ 122 →
      s.next = .ok (some (Char.ofNat
        ((if s.force_case = .ToUpper then 65 else 97) +
          outVal s.mode (ch.toNat - 97) s.distances[s.index])),
        { s with index := (s.index + 1) % s.distances.length,
                 iter := rest })) := by
  constructor
  · intro hch
    unfold VigenereIterator.next
    rw [hiter, nextAux_upper_ok s.mode s.distances s.force_case
      s.none_letter_mode s.index ch rest hch hi
      (hlt _ (List.getElem_mem hi))]
  · intro hch
    unfold VigenereIterator.next
    rw [hiter, nextAux_lower_ok s.mode s.distances s.force_case
      s.none_letter_mode s.index ch rest hch hi
      (hlt _ (List.getElem_mem hi))]

/-- Witness for C3: encrypting `'H'` with schedule `[1,2,3]` at cursor 1
emits `'J'` and advances the cursor to 2. -/
theorem spec_c3_letter_step_witness :
    (⟨.Encrypt, [1, 2, 3], .Keep, .Keep, 1, ['H', 'I']⟩ :
      VigenereIterator).next =
    .ok (some 'J', ⟨.Encrypt, [1, 2, 3], .Keep, .Keep, 2, ['I']⟩) :=
  (spec_c3_letter_step ⟨.Encrypt, [1, 2, 3], .Keep, .Keep, 1, ['H', 'I']⟩
    (by decide) (by decide) 'H' ['I'] rfl).1 (by decide)

/-- Claim C4: cursor advance invariant — consuming a letter advances the
cursor exactly once (modulo the schedule length), consuming a non-letter
leaves it unchanged under both `Keep` and `Skip`, the error/final-cursor
trace under `Keep` depends only on the letter subsequence of the input,
and concretely `encrypt("HI","B") = "IJ"` while `encrypt("H-I","B")`
with the `Keep` policy yields `"I-J"`. -/
theorem spec_c4_cursor (m : VigenereMode) (d : List Nat) (fc : ForceCase)
    (nlm : NonLetterMode) (i : Nat) (ch : Char) (rest xs : List Char)
    (hi : i < d.length) (hlt : ∀ x ∈ d, x < 26) :
    (isLatinLetter ch → ∃ c, nextAux m d fc nlm i (ch :: rest) =
      .ok (some c, (i + 1) % d.length, rest)) ∧
    (¬ isLatinLetter ch →
      nextAux m d fc .Keep i (ch :: rest) = .ok (some ch, i, rest) ∧
      nextAux m d fc .Skip i (ch :: rest) = nextAux m d fc .Skip i rest) ∧
    Except.map Prod.snd (runList m d fc .Keep i xs) =
      Except.map Prod.snd (runList m d fc .Keep i
        (xs.filter isLatinLetterB)) ∧
    (Vigenere.new ['B']).encrypt ['H', 'I'] = .ok ['I', 'J'] ∧
    (Vigenere.new ['B']).encrypt ['H', '-', 'I'] = .ok ['I', '-', 'J'] := by
  refine ⟨?_, ?_, runList_keep_snd_filter m d fc i xs, ?_, ?_⟩
  · intro hch
    rcases hch with h1 | h2
    · exact ⟨_, nextAux_upper_ok m d fc nlm i ch rest h1 hi
        (hlt _ (List.getElem_mem hi))⟩
    · exact ⟨_, nextAux_lower_ok m d fc nlm i ch rest h2 hi
        (hlt _ (List.getElem_mem hi))⟩
  · intro hch
    exact ⟨nextAux_other_keep m d fc i ch rest hch,
      nextAux_other_skip m d fc i ch rest hch⟩
  · rw [facade_encrypt_eval ['B'] ['H', 'I'] [1] rfl]
    rfl
  · rw [facade_encrypt_eval ['B'] ['H', '-', 'I'] [1] rfl]
    rfl

/-- Witness for C4: a letter consumed at cursor 0 of the schedule `[1]`
advances the cursor to `(0 + 1) % 1`. -/
theorem spec_c4_cursor_witness :
    ∃ c, nextAux .Encrypt [1] .Keep .Keep 0 ['H'] =
      .ok (some c, (0 + 1) % ([1] : List Nat).length, ([] : List Char)) :=
  (spec_c4_cursor .Encrypt [1] .Keep .Keep 0 'H' [] [] (by decide)
    (by decide)).1 (by decide)

/-- Claim C5: the `Skip` policy emits nothing for a non-letter, does not
advance the cursor, and proceeds to the next input character, so a run
computes exactly the run of the letters-only subsequence; concretely
encrypting `"H-i H+i"` with key `"ABC"` under `Skip` yields `"HjJi"`,
4 characters out for 7 in. -/
theorem spec_c5_skip (m : VigenereMode) (d : List Nat) (fc : ForceCase)
    (i : Nat) (ch : Char) (rest xs : List Char)
    (hch : ¬ isLatinLetter ch) :
    nextAux m d fc .Skip i (ch :: rest) = nextAux m d fc .Skip i rest ∧
    runList m d fc .Skip i xs =
      runList m d fc .Skip i (xs.filter isLatinLetterB) ∧
    encryptCollect "H-i H+i".toList "ABC".toList none (some .Skip) =
      .ok "HjJi".toList ∧
    "HjJi".toList.length = 4 ∧ "H-i H+i".toList.length = 7 := by
  refine ⟨nextAux_other_skip m d fc i ch rest hch,
    runList_skip_filter m d fc i xs, ?_, by decide, by decide⟩
  rw [encryptCollect_eval "ABC".toList "H-i H+i".toList [0, 1, 2] none
    (some .Skip) rfl]
  rfl

/-- Witness for C5 at the non-letter `'-'`. -/
theorem spec_c5_skip_witness :
    nextAux .Encrypt [0] .Keep .Skip 0 ['-', 'A'] =
      nextAux .Encrypt [0] .Keep .Skip 0 ['A'] :=
  (spec_c5_skip .Encrypt [0] .Keep 0 '-' ['A'] [] (by decide)).1

/-- Claim C6: step totality — for every mode, every configuration and
every input, an iterator constructed from a non-empty key of Latin
letters is built successfully and can be drained to exhaustion without
any runtime failure: the schedule indexing stays in bounds, the modulo
is never by zero, and the checked `u8` arithmetic never overflows or
underflows. -/
theorem spec_c6_totality (mode : VigenereMode) (key iter : List Char)
    (fc : ForceCase) (nlm : NonLetterMode) (hkey : ValidKey key) :
    ∃ v out, VigenereIterator.new mode key iter = .ok v ∧
      ((v.with_force_case fc).with_none_letter_mode nlm).collect =
        .ok out := by
  obtain ⟨d, hd, hlen, hlt⟩ := keyDistances_valid key hkey.2
  have hne : d ≠ [] := by
    have hk : key.length ≠ 0 := fun h0 => hkey.1 (List.length_eq_zero.mp h0)
    intro h0
    rw [h0] at hlen
    exact hk hlen.symm
  obtain ⟨out, j, hrun, hj⟩ := runList_ok_of_good mode d fc nlm hne hlt
    iter 0 (List.length_pos.mpr hne)
  refine ⟨⟨mode, d, .Keep, .Keep, 0, iter⟩, out, ?_, ?_⟩
  · unfold VigenereIterator.new
    rw [hd]
  · rw [show ((VigenereIterator.with_force_case
      ⟨mode, d, .Keep, .Keep, 0, iter⟩ fc).with_none_letter_mode nlm) =
      ⟨mode, d, fc, nlm, 0, iter⟩ from rfl]
    rw [collect_eq_runList]
    rw [show runList (⟨mode, d, fc, nlm, 0, iter⟩ :
      VigenereIterator).mode d fc nlm 0 iter = runList mode d fc nlm 0 iter
      from rfl]
    rw [hrun]
    rfl

/-- Witness for C6 at key `"Bz"`, mixed input. -/
theorem spec_c6_totality_witness :
    ∃ v out, VigenereIterator.new .Decrypt "Bz".toList "Ha-z!".toList =
      .ok v ∧
      ((v.with_force_case .ToUpper).with_none_letter_mode .Skip).collect =
        .ok out :=
  spec_c6_totality .Decrypt "Bz".toList "Ha-z!".toList .ToUpper .Skip
    (by decide)

/-- Claim C7, counterexample: with `non_letter_policy = Skip` a single
call of the step operation can consume more than one upstream character
(here two: the skipped `'-'` and the letter `'A'`), so the claim that
each call consumes at most one upstream character under every policy is
false. -/
theorem spec_c7_counterexample :
    nextAux .Encrypt [0] .Keep .Skip 0 ['-', 'A'] =
      .ok (some 'A', 0, ([] : List Char)) ∧
    ¬ (['-', 'A'] : List Char).length - ([] : List Char).length ≤ 1 ∧
    ¬ (∀ (i : Nat) (input : List Char) (oc : Option Char) (i' : Nat)
        (rest : List Char),
        nextAux .Encrypt [0] .Keep .Skip i input = .ok (oc, i', rest) →
        input.length - rest.length ≤ 1) := by
  refine ⟨rfl, by decide, fun h => ?_⟩
  exact absurd (h 0 ['-', 'A'] (some 'A') 0 [] rfl) (by decide)

/-- Claim C7, amended: each call of the step operation produces at most
one downstream character, and consequently a whole run never emits more
characters than it consumes (no buffering); under the `Keep` policy a
call on a non-empty source consumes exactly one upstream character,
while under `Skip` a call may additionally consume the skipped
non-letters. -/
theorem spec_c7_amended (m : VigenereMode) (d : List Nat)
    (fc : ForceCase) (i : Nat) :
    (∀ (nlm : NonLetterMode) (xs out : List Char) (j : Nat),
      runList m d fc nlm i xs = .ok (out, j) →
      out.length ≤ xs.length) ∧
    (∀ (ch : Char) (rest rest' : List Char) (oc : Option Char) (i' : Nat),
      nextAux m d fc .Keep i (ch :: rest) = .ok (oc, i', rest') →
      rest' = rest) := by
  constructor
  · intro nlm xs out j h
    exact runList_length_le m d fc nlm xs i out j h
  · intro ch rest rest' oc i' h
    rw [nextAux] at h
    split_ifs at h with h1 h2 h3
    · split at h
      · exact absurd h (by simp)
      · simp only [Except.ok.injEq, Option.some.injEq, Prod.mk.injEq] at h
        exact h.2.2.symm
    · split at h
      · exact absurd h (by simp)
      · simp only [Except.ok.injEq, Option.some.injEq, Prod.mk.injEq] at h
        exact h.2.2.symm
    · exact absurd h3 (by simp)
    · simp only [Except.ok.injEq, Option.some.injEq, Prod.mk.injEq] at h
      exact h.2.2.symm

/-- Witness for the amended C7: the skipping run of `"-A"` emits one
character for two consumed, and a `Keep` call consumes exactly one. -/
theorem spec_c7_amended_witness :
    (['A'] : List Char).length ≤ (['-', 'A'] : List Char).length ∧
    (['-', 'A'] : List Char) = ['-', 'A'] :=
  ⟨(spec_c7_amended .Encrypt [0] .Keep 0).1 .Skip ['-', 'A'] ['A'] 0 rfl,
    ((spec_c7_amended .Encrypt [0] .Keep 0).2 '-' ['A'] ['A'] (some '-')
      0 rfl) ▸ rfl⟩

/-- Claim C8: case-policy non-interference — the error/final-cursor
trace of a run (hence the sequence of shift lookups and cursor advances)
is identical for every case policy and identical when the case of every
input letter is swapped; concretely `encrypt("HiHi","ABC")` forced lower
yields `"hjji"` and forced upper yields `"HJJI"`. -/
theorem spec_c8_case_policy (m : VigenereMode) (d : List Nat)
    (nlm : NonLetterMode) (fc fc' : ForceCase) (xs : List Char)
    (i : Nat) :
    Except.map Prod.snd (runList m d fc nlm i xs) =
      Except.map Prod.snd (runList m d fc' nlm i xs) ∧
    Except.map Prod.snd (runList m d fc nlm i xs) =
      Except.map Prod.snd (runList m d fc nlm i
        (xs.map toOppositeCase)) ∧
    encryptCollect "HiHi".toList "ABC".toList (some .ToLower) none =
      .ok "hjji".toList ∧
    encryptCollect "HiHi".toList "ABC".toList (some .ToUpper) none =
      .ok "HJJI".toList := by
  refine ⟨runList_snd_fc m d nlm fc fc' xs i,
    runList_snd_swapcase m d fc nlm xs i, ?_, ?_⟩
  · rw [encryptCollect_eval "ABC".toList "HiHi".toList [0, 1, 2]
      (some .ToLower) none rfl]
    rfl
  · rw [encryptCollect_eval "ABC".toList "HiHi".toList [0, 1, 2]
      (some .ToUpper) none rfl]
    rfl

/-- Claim C9, counterexample: the façade's whole-string encrypt does not
return a string of the input's length for every key — with the empty
key and input `"A"` it fails (index-out-of-bounds panic) and returns no
string at all. -/
theorem spec_c9_counterexample :
    (Vigenere.new ([] : List Char)).encrypt ['A'] =
      .error .indexOutOfBounds ∧
    ∀ out : List Char,
      (Vigenere.new ([] : List Char)).encrypt ['A'] ≠ .ok out := by
  have h1 : (Vigenere.new ([] : List Char)).encrypt ['A'] =
      .error .indexOutOfBounds := by
    rw [facade_encrypt_eval ([] : List Char) ['A'] [] rfl]
    rfl
  refine ⟨h1, fun out h => ?_⟩
  rw [h1] at h
  exact Except.noConfusion h

/-- Claim C9, amended: for every non-empty key of Latin letters and
every input, the façade's encrypt and decrypt (fixed default policy
`Keep`) return a string whose character count equals the input's —
every input character yields exactly one output character. -/
theorem spec_c9_amended (key text : List Char) (hkey : ValidKey key) :
    (∃ out, (Vigenere.new key).encrypt text = .ok out ∧
      out.length = text.length) ∧
    (∃ out, (Vigenere.new key).decrypt text = .ok out ∧
      out.length = text.length) := by
  obtain ⟨d, hd, hlen, hlt⟩ := keyDistances_valid key hkey.2
  have hne : d ≠ [] := by
    have hk : key.length ≠ 0 := fun h0 => hkey.1 (List.length_eq_zero.mp h0)
    intro h0
    rw [h0] at hlen
    exact hk hlen.symm
  constructor
  · obtain ⟨out, j, hrun, hl⟩ := runList_keep_length .Encrypt d .Keep hne
      hlt text 0 (List.length_pos.mpr hne)
    refine ⟨out, ?_, hl⟩
    rw [facade_encrypt_eval key text d hd, hrun]
    rfl
  · obtain ⟨out, j, hrun, hl⟩ := runList_keep_length .Decrypt d .Keep hne
      hlt text 0 (List.length_pos.mpr hne)
    refine ⟨out, ?_, hl⟩
    rw [facade_decrypt_eval key text d hd, hrun]
    rfl

/-- Witness for the amended C9 at key `"Bz"`, input `"H-i !"`. -/
theorem spec_c9_amended_witness :
    (∃ out, (Vigenere.new "Bz".toList).encrypt "H-i !".toList = .ok out ∧
      out.length = "H-i !".toList.length) ∧
    (∃ out, (Vigenere.new "Bz".toList).decrypt "H-i !".toList = .ok out ∧
      out.length = "H-i !".toList.length) :=
  spec_c9_amended "Bz".toList "H-i !".toList (by decide)

/-- Claim C10: any character outside the ASCII ranges `'A'..='Z'` and
`'a'..='z'` — digits, punctuation, whitespace, and non-ASCII Unicode
letters alike — is treated as a non-letter by every step: under `Keep`
it is emitted unchanged (identical code point) and under `Skip` it is
dropped, and in both cases the cursor does not advance; such characters
are never shifted. -/
theorem spec_c10_non_letter (m : VigenereMode) (d : List Nat)
    (fc : ForceCase) (i : Nat) (ch : Char) (rest : List Char)
    (hch : ¬ isLatinLetter ch) :
    nextAux m d fc .Keep i (ch :: rest) = .ok (some ch, i, rest) ∧
    nextAux m d fc .Skip i (ch :: rest) = nextAux m d fc .Skip i rest :=
  ⟨nextAux_other_keep m d fc i ch rest hch,
    nextAux_other_skip m d fc i ch rest hch⟩

/-- Witness for C10 at the non-ASCII letter `'é'` (code point 233). -/
theorem spec_c10_non_letter_witness :
    nextAux .Encrypt [1] .Keep .Keep 0 ['é', 'A'] =
      .ok (some 'é', 0, ['A']) ∧
    nextAux .Encrypt [1] .Keep .Skip 0 ['é', 'A'] =
      nextAux .Encrypt [1] .Keep .Skip 0 ['A'] :=
  spec_c10_non_letter .Encrypt [1] .Keep 0 'é' ['A'] (by decide)
